import Mathlib

/-!
Verification of the actor-learner training pipeline in `src/agents/mc_agent.py`
(TStarBot1).  Pure functions are embedded as Lean functions over `ℚ`/`ℕ`;
the stateful curriculum controller and the per-thread replay deque are
embedded as explicit state-passing functions.  Randomness (epsilon draws,
`random.sample` position draws, `MaskDiscrete.sample` choices) is modelled by
explicit parameters constrained by the hypotheses of the theorems.
-/

namespace MCAgent

/-- One step of a trajectory as recorded by `actor_worker`
(`transitions.append((observation, action, reward))`, mc_agent.py line 95).
Observations and actions are abstracted to `ℕ` identifiers; rewards are `ℚ`. -/
structure TransRec where
  obs : ℕ
  act : ℕ
  reward : ℚ
  deriving Repr, DecidableEq, Inhabited

/-- The backward-accumulation loop of `actor_worker` (mc_agent.py lines 98-101):
`for observation, action, reward in reversed(transitions): cum_return =
cum_return * discount + reward; transition_queue.put((observation, action,
cum_return))`.  The first argument list is already the reversed trajectory;
`cum` is the running `cum_return`; the output is the list of queue pushes in
push order. -/
def pushLoop (discount : ℚ) : ℚ → List TransRec → List (ℕ × ℕ × ℚ)
  | _, [] => []
  | cum, t :: rest =>
    (t.obs, t.act, cum * discount + t.reward) ::
      pushLoop discount (cum * discount + t.reward) rest

/-- All transition-queue pushes made by `actor_worker` for one finished
trajectory: the loop above runs over `reversed(transitions)` with
`cum_return = 0.0` (mc_agent.py lines 80, 98-101). -/
def actorEmit (discount : ℚ) (transitions : List TransRec) : List (ℕ × ℕ × ℚ) :=
  pushLoop discount 0 transitions.reverse

theorem pushLoop_length (discount : ℚ) (cum : ℚ) (l : List TransRec) :
    (pushLoop discount cum l).length = l.length := by
  induction l generalizing cum with
  | nil => rfl
  | cons t rest ih => simp [pushLoop, ih]

/-- Closed form of the accumulation: the `j`-th push (0-based, push order)
carries return `cum₀·γ^(j+1) + Σ_{i≤j} γ^(j-i)·r_i` over the reversed list. -/
theorem pushLoop_getD (discount : ℚ) (cum : ℚ) (l : List TransRec) (j : ℕ)
    (hj : j < l.length) :
    (pushLoop discount cum l).getD j default =
      ((l.getD j default).obs, (l.getD j default).act,
        cum * discount ^ (j + 1) +
          ∑ i ∈ Finset.range (j + 1),
            discount ^ (j - i) * (l.getD i default).reward) := by
  induction l generalizing cum j with
  | nil => simp at hj
  | cons t rest ih =>
    cases j with
    | zero =>
      simp [pushLoop, pow_one]
    | succ j =>
      have hj' : j < rest.length := by simpa using hj
      have hrec := ih (cum * discount + t.reward) j hj'
      have hsum :
          ∑ i ∈ Finset.range (j + 2),
              discount ^ (j + 1 - i) * ((t :: rest).getD i default).reward =
            discount ^ (j + 1) * t.reward +
              ∑ i ∈ Finset.range (j + 1),
                discount ^ (j - i) * (rest.getD i default).reward := by
        rw [Finset.sum_range_succ']
        have hterm :
            ∀ i ∈ Finset.range (j + 1),
              discount ^ (j + 1 - (i + 1)) *
                  ((t :: rest).getD (i + 1) default).reward =
                discount ^ (j - i) * (rest.getD i default).reward := by
          intro i _
          simp [List.getD_cons_succ]
        rw [Finset.sum_congr rfl hterm]
        simp [add_comm]
      simp only [pushLoop, List.getD_cons_succ, hrec, hsum, Prod.mk.injEq]
      refine ⟨trivial, trivial, ?_⟩
      ring

theorem getD_reverse {α : Type} [Inhabited α] (l : List α) (i : ℕ)
    (hi : i < l.length) :
    l.reverse.getD i default = l.getD (l.length - 1 - i) default := by
  have h1 : i < l.reverse.length := by simpa using hi
  have h2 : l.length - 1 - i < l.length := by omega
  rw [List.getD_eq_getElem _ _ h1, List.getD_eq_getElem _ _ h2]
  exact List.getElem_reverse ..

/-- Claim C1: for a finished trajectory of rewards `r_0..r_{T-1}` and discount
`γ`, the backward accumulation `G ← G·γ + r` of `actor_worker` (mc_agent.py
lines 98-101) pushes one transition per trajectory step, and the transition
pushed for chronological step `t` (push index `T-1-t`, since pushes run in
reverse) carries the observation and action of step `t` together with the
discounted reward-to-go `Σ_{k=0}^{T-1-t} γ^k · r_{t+k}`. -/
theorem actorEmit_returnsToGo (γ : ℚ) (tr : List TransRec) (t : ℕ)
    (ht : t < tr.length) :
    (actorEmit γ tr).length = tr.length ∧
    (actorEmit γ tr).getD (tr.length - 1 - t) default =
      ((tr.getD t default).obs, (tr.getD t default).act,
        ∑ k ∈ Finset.range (tr.length - t),
          γ ^ k * (tr.getD (t + k) default).reward) := by
  constructor
  · simp [actorEmit, pushLoop_length]
  · have hj : tr.length - 1 - t < tr.reverse.length := by simp; omega
    have hmain := pushLoop_getD γ 0 tr.reverse (tr.length - 1 - t) hj
    have hobs : tr.reverse.getD (tr.length - 1 - t) default = tr.getD t default := by
      rw [getD_reverse tr _ (by omega)]
      congr 1
      omega
    have hsum :
        ∑ i ∈ Finset.range (tr.length - 1 - t + 1),
            γ ^ (tr.length - 1 - t - i) * (tr.reverse.getD i default).reward =
          ∑ k ∈ Finset.range (tr.length - t),
            γ ^ k * (tr.getD (t + k) default).reward := by
      have hcard : tr.length - 1 - t + 1 = tr.length - t := by omega
      rw [hcard,
        ← Finset.sum_range_reflect
          (fun k => γ ^ k * (tr.getD (t + k) default).reward) (tr.length - t)]
      apply Finset.sum_congr rfl
      intro i hi
      have hi' : i < tr.length - t := Finset.mem_range.mp hi
      rw [getD_reverse tr i (by omega)]
      have e1 : tr.length - 1 - t - i = tr.length - t - 1 - i := by omega
      have e2 : t + (tr.length - t - 1 - i) = tr.length - 1 - i := by omega
      rw [e1, e2]
    show (pushLoop γ 0 tr.reverse).getD (tr.length - 1 - t) default = _
    rw [hmain, hobs, hsum]
    simp

/-- Concrete instance of `actorEmit_returnsToGo`: the spec's own example,
discount `0.9`, rewards `[1, 0, 0, -1]`, at chronological step `t = 0`. -/
theorem actorEmit_returnsToGo_witness :
    0 <
      ([⟨0, 0, 1⟩, ⟨1, 1, 0⟩, ⟨2, 0, 0⟩,
        ⟨3, 1, -1⟩] : List TransRec).length ∧
    ((actorEmit (9/10)
        [⟨0, 0, 1⟩, ⟨1, 1, 0⟩, ⟨2, 0, 0⟩, ⟨3, 1, -1⟩]).length =
      ([⟨0, 0, 1⟩, ⟨1, 1, 0⟩, ⟨2, 0, 0⟩,
        ⟨3, 1, -1⟩] : List TransRec).length ∧
    (actorEmit (9/10)
        [⟨0, 0, 1⟩, ⟨1, 1, 0⟩, ⟨2, 0, 0⟩, ⟨3, 1, -1⟩]).getD
        (([⟨0, 0, 1⟩, ⟨1, 1, 0⟩, ⟨2, 0, 0⟩,
          ⟨3, 1, -1⟩] : List TransRec).length - 1 - 0) default =
      ((([⟨0, 0, 1⟩, ⟨1, 1, 0⟩, ⟨2, 0, 0⟩,
          ⟨3, 1, -1⟩] : List TransRec).getD 0 default).obs,
       (([⟨0, 0, 1⟩, ⟨1, 1, 0⟩, ⟨2, 0, 0⟩,
          ⟨3, 1, -1⟩] : List TransRec).getD 0 default).act,
        ∑ k ∈ Finset.range
          (([⟨0, 0, 1⟩, ⟨1, 1, 0⟩, ⟨2, 0, 0⟩,
            ⟨3, 1, -1⟩] : List TransRec).length - 0),
          (9/10 : ℚ) ^ k *
            (([⟨0, 0, 1⟩, ⟨1, 1, 0⟩, ⟨2, 0, 0⟩,
              ⟨3, 1, -1⟩] : List TransRec).getD (0 + k) default).reward)) :=
  ⟨by decide,
    actorEmit_returnsToGo (9/10)
      [⟨0, 0, 1⟩, ⟨1, 1, 0⟩, ⟨2, 0, 0⟩, ⟨3, 1, -1⟩] 0 (by decide)⟩

/-! ### Bounded deques (`collections.deque(maxlen=...)`)

`_recent_outcomes` (mc_agent.py line 172) and each assembler thread's
`memory` (line 334) are Python deques with a `maxlen`: appending on the
right past `maxlen` silently discards the leftmost (oldest) element. -/

/-- The last `n` elements of a list. -/
def takeLast {α : Type} (n : ℕ) (l : List α) : List α :=
  l.drop (l.length - n)

/-- One `append` on a deque with bound `maxlen`: push right, and when the
length would exceed `maxlen`, the oldest (leftmost) element is discarded. -/
def dequeAppend {α : Type} (maxlen : ℕ) (w : List α) (x : α) : List α :=
  takeLast maxlen (w ++ [x])

/-- Appending a whole list one element at a time, as the drain loops of
`_update_curriculum_difficulty` and `_prepare_batch` do. -/
def dequeExtend {α : Type} (maxlen : ℕ) (w : List α) (xs : List α) : List α :=
  xs.foldl (dequeAppend maxlen) w

theorem takeLast_length {α : Type} (n : ℕ) (l : List α) :
    (takeLast n l).length = min l.length n := by
  simp [takeLast]
  omega

theorem takeLast_eq_self {α : Type} {n : ℕ} {l : List α} (h : l.length ≤ n) :
    takeLast n l = l := by
  simp [takeLast, Nat.sub_eq_zero_of_le h]

theorem takeLast_append_takeLast {α : Type} (m : ℕ) (l rest : List α) :
    takeLast m (takeLast m l ++ rest) = takeLast m (l ++ rest) := by
  unfold takeLast
  rw [List.drop_append_eq_append_drop, List.drop_drop,
    List.drop_append_eq_append_drop]
  have h1 : l.length - m + ((l.drop (l.length - m) ++ rest).length - m) =
      (l ++ rest).length - m := by
    simp
    omega
  have h2 : (l.drop (l.length - m) ++ rest).length - m -
      (l.drop (l.length - m)).length = (l ++ rest).length - m - l.length := by
    simp
    omega
  rw [h1, h2]

/-- Draining `xs` into a bounded deque keeps exactly the last `maxlen`
elements of the concatenation. -/
theorem dequeExtend_eq_takeLast {α : Type} (maxlen : ℕ) (w xs : List α)
    (hw : w.length ≤ maxlen) :
    dequeExtend maxlen w xs = takeLast maxlen (w ++ xs) := by
  induction xs generalizing w with
  | nil =>
    simp [dequeExtend, takeLast_eq_self hw]
  | cons x rest ih =>
    have hstep : dequeExtend maxlen w (x :: rest) =
        dequeExtend maxlen (dequeAppend maxlen w x) rest := rfl
    have hw1 : (dequeAppend maxlen w x).length ≤ maxlen := by
      rw [dequeAppend, takeLast_length]
      omega
    rw [hstep, ih _ hw1, dequeAppend, takeLast_append_takeLast]
    simp

theorem dequeExtend_length_le {α : Type} (maxlen : ℕ) (xs : List α) :
    (dequeExtend maxlen ([] : List α) xs).length ≤ maxlen := by
  rw [dequeExtend_eq_takeLast maxlen [] xs (by simp), takeLast_length]
  omega

/-! ### Curriculum controller (`MCAgent._update_curriculum_difficulty`) -/

/-- The mutable curriculum state: `_cur_difficulty_idx.value` (initialised to
`0`, mc_agent.py line 171) and the contents of the `_recent_outcomes` deque
(initialised empty with `maxlen=1000`, line 172), oldest first. -/
structure CurrState where
  idx : ℕ
  window : List ℚ
  deriving Repr, DecidableEq

/-- The outcome window after the drain loop of
`_update_curriculum_difficulty` (mc_agent.py lines 318-320) has appended the
`drained` outcomes to the bounded deque `s.window`. -/
def drainedWindow (W : ℕ) (s : CurrState) (drained : List ℚ) : List ℚ :=
  dequeExtend W s.window drained

/-- `MCAgent._update_curriculum_difficulty` (mc_agent.py lines 316-331) over
one invocation.  `W` is the deque bound (`1000` at line 172); `difficulties`
and `threshold` are the constructor arguments; `drained` is the list of
outcomes pulled from the outcome queue during this invocation, in arrival
order.  `has_new_outcome` is `drained ≠ []`; the winning rate is
`(sum(outcomes)/len(outcomes) + 1) / 2`; the advance test is
`winning_rate >= threshold and len(difficulties) > idx + 1`. -/
def updateCurriculumDifficulty (W : ℕ) {D : Type} (difficulties : List D)
    (threshold : ℚ) (s : CurrState) (drained : List ℚ) : CurrState :=
  let window := drainedWindow W s drained
  if drained ≠ [] ∧ window.length = W then
    if (window.sum / (window.length : ℚ) + 1) / 2 ≥ threshold ∧
        s.idx + 1 < difficulties.length then
      ⟨s.idx + 1, []⟩
    else ⟨s.idx, window⟩
  else ⟨s.idx, window⟩

/-- A run of curriculum invocations from the freshly constructed state
(`idx = 0`, empty window; mc_agent.py lines 171-172): one list of drained
outcomes per invocation. -/
def curriculumRun (W : ℕ) {D : Type} (difficulties : List D) (threshold : ℚ)
    (drains : List (List ℚ)) : CurrState :=
  drains.foldl (updateCurriculumDifficulty W difficulties threshold) ⟨0, []⟩

/-- Branch characterization of one curriculum invocation. -/
theorem updateCurriculumDifficulty_cases (W : ℕ) {D : Type}
    (difficulties : List D) (threshold : ℚ) (s : CurrState)
    (drained : List ℚ) :
    updateCurriculumDifficulty W difficulties threshold s drained =
      if drained ≠ [] ∧ (drainedWindow W s drained).length = W ∧
          ((drainedWindow W s drained).sum /
            ((drainedWindow W s drained).length : ℚ) + 1) / 2 ≥ threshold ∧
          s.idx + 1 < difficulties.length then
        ⟨s.idx + 1, []⟩
      else ⟨s.idx, drainedWindow W s drained⟩ := by
  simp only [updateCurriculumDifficulty]
  by_cases h1 : drained = []
  · simp [h1]
  · by_cases hlen : (drainedWindow W s drained).length = W
    · by_cases h2 : ((drainedWindow W s drained).sum /
          ((drainedWindow W s drained).length : ℚ) + 1) / 2 ≥ threshold ∧
          s.idx + 1 < difficulties.length
      · rw [if_pos ⟨h1, hlen⟩, if_pos h2, if_pos ⟨h1, hlen, h2.1, h2.2⟩]
      · rw [if_pos ⟨h1, hlen⟩, if_neg h2, if_neg (by tauto)]
    · have hno : ¬(drained ≠ [] ∧ (drainedWindow W s drained).length = W) := by
        tauto
      rw [if_neg hno, if_neg (by tauto)]

theorem update_idx_monotone (W : ℕ) {D : Type} (difficulties : List D)
    (threshold : ℚ) (s : CurrState) (drained : List ℚ) :
    s.idx ≤ (updateCurriculumDifficulty W difficulties threshold s drained).idx := by
  rw [updateCurriculumDifficulty_cases]
  split_ifs <;> simp

theorem update_idx_bound (W : ℕ) {D : Type} (difficulties : List D)
    (threshold : ℚ) (s : CurrState) (drained : List ℚ)
    (h : s.idx + 1 ≤ difficulties.length) :
    (updateCurriculumDifficulty W difficulties threshold s drained).idx + 1 ≤
      difficulties.length := by
  rw [updateCurriculumDifficulty_cases]
  split_ifs with hc
  · have := hc.2.2.2
    simp
    omega
  · simpa using h

theorem foldl_update_idx_bound (W : ℕ) {D : Type} (difficulties : List D)
    (threshold : ℚ) (drains : List (List ℚ)) :
    ∀ s : CurrState, s.idx + 1 ≤ difficulties.length →
      (drains.foldl (updateCurriculumDifficulty W difficulties threshold)
          s).idx + 1 ≤ difficulties.length := by
  induction drains with
  | nil => intro s hs; simpa using hs
  | cons d rest ih =>
    intro s hs
    exact ih _ (update_idx_bound W difficulties threshold s d hs)

/-- Claim C3: one invocation of `_update_curriculum_difficulty` advances the
difficulty index exactly when all of the following hold: at least one outcome
was drained from the outcome queue, the post-drain window holds exactly its
maximum capacity `W` of entries, the winning rate `(mean(outcomes)+1)/2` is
at least the configured threshold, and a higher difficulty level remains;
when it advances the window is cleared; otherwise the index is unchanged and
the window is exactly the drained appends (the last `W` entries of
old-window ++ drained). -/
theorem curriculumAdvance_characterization (W : ℕ) {D : Type}
    (difficulties : List D) (threshold : ℚ) (s : CurrState) (drained : List ℚ)
    (hw : s.window.length ≤ W) :
    (drainedWindow W s drained = takeLast W (s.window ++ drained)) ∧
    ((updateCurriculumDifficulty W difficulties threshold s drained).idx =
        s.idx + 1 ↔
      (drained ≠ [] ∧ (drainedWindow W s drained).length = W ∧
        ((drainedWindow W s drained).sum /
            ((drainedWindow W s drained).length : ℚ) + 1) / 2 ≥ threshold ∧
        s.idx + 1 < difficulties.length)) ∧
    ((drained ≠ [] ∧ (drainedWindow W s drained).length = W ∧
        ((drainedWindow W s drained).sum /
            ((drainedWindow W s drained).length : ℚ) + 1) / 2 ≥ threshold ∧
        s.idx + 1 < difficulties.length) →
      updateCurriculumDifficulty W difficulties threshold s drained =
        ⟨s.idx + 1, []⟩) ∧
    (¬(drained ≠ [] ∧ (drainedWindow W s drained).length = W ∧
        ((drainedWindow W s drained).sum /
            ((drainedWindow W s drained).length : ℚ) + 1) / 2 ≥ threshold ∧
        s.idx + 1 < difficulties.length) →
      updateCurriculumDifficulty W difficulties threshold s drained =
        ⟨s.idx, drainedWindow W s drained⟩) := by
  refine ⟨dequeExtend_eq_takeLast W s.window drained hw, ?_, ?_, ?_⟩
  · rw [updateCurriculumDifficulty_cases]
    split_ifs with hc
    · simpa using hc
    · simpa using hc
  · intro hc
    rw [updateCurriculumDifficulty_cases, if_pos hc]
  · intro hc
    rw [updateCurriculumDifficulty_cases, if_neg hc]

/-- Concrete instance of `curriculumAdvance_characterization`: with capacity
`2`, two difficulty levels, threshold `1/2`, a window `[1]` and one drained
winning outcome, the invocation advances to index 1 and clears the window. -/
theorem curriculumAdvance_characterization_witness :
    updateCurriculumDifficulty 2 [(5 : ℕ), 6] (1/2) ⟨0, [1]⟩ [1] =
      ⟨0 + 1, []⟩ :=
  (curriculumAdvance_characterization 2 [(5 : ℕ), 6] (1/2) ⟨0, [1]⟩ [1]
    (by decide)).2.2.1
    ⟨by simp, by norm_num [drainedWindow, dequeExtend, dequeAppend, takeLast],
      by norm_num [drainedWindow, dequeExtend, dequeAppend, takeLast],
      by simp⟩

/-- Counterexample to claim C2 as stated: an invocation (from the freshly
constructed state, window capacity `1000` as at mc_agent.py line 172) whose
post-drain outcome window is full and whose winning rate meets the threshold,
yet the difficulty index does not advance, because no higher difficulty level
remains (`len(difficulties) > idx + 1` fails for a one-element list). -/
theorem c2_counterexample :
    (List.replicate 1000 (1 : ℚ) ≠ []) ∧
    (drainedWindow 1000 ⟨0, []⟩ (List.replicate 1000 (1 : ℚ))).length =
      1000 ∧
    ((drainedWindow 1000 ⟨0, []⟩ (List.replicate 1000 (1 : ℚ))).sum /
        ((drainedWindow 1000 ⟨0, []⟩
          (List.replicate 1000 (1 : ℚ))).length : ℚ) + 1) / 2 ≥
      (1/2 : ℚ) ∧
    (updateCurriculumDifficulty 1000 ["easy"] (1/2) ⟨0, []⟩
        (List.replicate 1000 (1 : ℚ))).idx = 0 := by
  have hwin : drainedWindow 1000 ⟨0, []⟩ (List.replicate 1000 (1 : ℚ)) =
      List.replicate 1000 (1 : ℚ) := by
    rw [drainedWindow,
      dequeExtend_eq_takeLast 1000 _ _ (by simp only [List.length_nil]; omega)]
    exact takeLast_eq_self
      (by simp only [List.nil_append, List.length_replicate]; omega)
  refine ⟨?_, by rw [hwin, List.length_replicate], ?_, ?_⟩
  · intro h
    have hlen : (List.replicate 1000 (1 : ℚ)).length = 1000 :=
      List.length_replicate ..
    rw [h] at hlen
    simp at hlen
  · rw [hwin, List.length_replicate, List.sum_replicate]
    norm_num
  · rw [updateCurriculumDifficulty_cases,
      if_neg (fun h => by simpa using h.2.2.2)]

/-- Claim C2, amended: the difficulty index is never decremented by an
invocation; starting from its initial value 0 it never exceeds
`len(difficulties) - 1` (for a nonempty difficulty list); it advances by
exactly one per invocation in which at least one new outcome was drained, the
post-drain window is full, the winning-rate threshold is met, and a higher
difficulty level remains; and the window is empty immediately after every
advance. -/
theorem curriculumIdx_invariants (W : ℕ) {D : Type} (difficulties : List D)
    (threshold : ℚ) :
    (∀ (s : CurrState) (drained : List ℚ),
      s.idx ≤
        (updateCurriculumDifficulty W difficulties threshold s drained).idx) ∧
    (∀ drains : List (List ℚ), 1 ≤ difficulties.length →
      (curriculumRun W difficulties threshold drains).idx ≤
        difficulties.length - 1) ∧
    (∀ (s : CurrState) (drained : List ℚ), drained ≠ [] →
      (drainedWindow W s drained).length = W →
      ((drainedWindow W s drained).sum /
          ((drainedWindow W s drained).length : ℚ) + 1) / 2 ≥ threshold →
      s.idx + 1 < difficulties.length →
      (updateCurriculumDifficulty W difficulties threshold s drained).idx =
          s.idx + 1 ∧
        (updateCurriculumDifficulty W difficulties threshold s
            drained).window = []) ∧
    (∀ (s : CurrState) (drained : List ℚ),
      (updateCurriculumDifficulty W difficulties threshold s drained).idx ≠
          s.idx →
      (updateCurriculumDifficulty W difficulties threshold s drained).window =
        []) := by
  refine ⟨update_idx_monotone W difficulties threshold, ?_, ?_, ?_⟩
  · intro drains h1
    have := foldl_update_idx_bound W difficulties threshold drains ⟨0, []⟩
      (by simpa using h1)
    rw [curriculumRun]
    omega
  · intro s drained h1 h2 h3 h4
    rw [updateCurriculumDifficulty_cases, if_pos ⟨h1, h2, h3, h4⟩]
    exact ⟨rfl, rfl⟩
  · intro s drained hne
    rw [updateCurriculumDifficulty_cases] at hne ⊢
    split_ifs at hne ⊢ with hc
    · rfl
    · simp at hne

/-- Concrete instance of `curriculumIdx_invariants`: capacity 4, two
difficulty levels, threshold `1/2`, window `[1, 1, 1]` plus one drained
winning outcome advances index 0 to 1 and clears the window. -/
theorem curriculumIdx_invariants_witness :
    (updateCurriculumDifficulty 4 [(3 : ℕ), 4] (1/2) ⟨0, [1, 1, 1]⟩
        [1]).idx = (CurrState.mk 0 [1, 1, 1]).idx + 1 ∧
    (updateCurriculumDifficulty 4 [(3 : ℕ), 4] (1/2) ⟨0, [1, 1, 1]⟩
        [1]).window = [] :=
  (curriculumIdx_invariants 4 [(3 : ℕ), 4] (1/2)).2.2.1 ⟨0, [1, 1, 1]⟩ [1]
    (by simp)
    (by norm_num [drainedWindow, dequeExtend, dequeAppend, takeLast])
    (by norm_num [drainedWindow, dequeExtend, dequeAppend, takeLast])
    (by simp)

/-! ### Replay buffer capacity (`MCAgent._prepare_batch`, line 334) -/

/-- Capacity of one assembler thread's replay deque:
`deque(maxlen=int(self._memory_size / self._num_threads))` (mc_agent.py line
334, with `self._num_threads = 4` set at line 167); `int` of the true
division of nonnegative integers is floor division. -/
def replayCapacity (memory_size num_threads : ℕ) : ℕ :=
  memory_size / num_threads

/-- Claim C5: an assembler thread's replay buffer has fixed capacity
`memory_size / num_threads`; its size never exceeds that capacity, and after
`capacity + k` insertions into the initially empty deque exactly the most
recent `capacity` transitions remain — the first `k` (oldest) having been
evicted in insertion order. -/
theorem replayBuffer_ring {α : Type} (memory_size num_threads : ℕ)
    (xs : List α) (k : ℕ)
    (hlen : xs.length = replayCapacity memory_size num_threads + k) :
    (∀ ys : List α,
      (dequeExtend (replayCapacity memory_size num_threads) [] ys).length ≤
        replayCapacity memory_size num_threads) ∧
    dequeExtend (replayCapacity memory_size num_threads) [] xs =
      xs.drop k := by
  refine ⟨fun ys => dequeExtend_length_le _ ys, ?_⟩
  rw [dequeExtend_eq_takeLast _ _ _ (by simp), takeLast]
  simp only [List.nil_append]
  congr 1
  omega

/-- Concrete instance of `replayBuffer_ring`: capacity `8 / 4 = 2`, three
insertions leave the last two elements. -/
theorem replayBuffer_ring_witness :
    dequeExtend (replayCapacity 8 4) [] [(10 : ℕ), 20, 30] =
      [(10 : ℕ), 20, 30].drop 1 :=
  (replayBuffer_ring 8 4 [(10 : ℕ), 20, 30] 1 (by decide)).2

/-! ### Exploration-rate schedule (`MCAgent._get_current_eps`) -/

/-- The `linear` branch of `MCAgent._get_current_eps` (mc_agent.py lines
391-399).  Python floats are modelled by exact rationals; the hard floor
`0.01` of the second phase and tail is `1/100`. -/
def getCurrentEpsLinear (eps_start eps_end : ℚ) (eps_decay eps_decay2 : ℕ)
    (steps : ℕ) : ℚ :=
  if steps < eps_decay then
    eps_start - (eps_start - eps_end) * steps / eps_decay
  else if steps < eps_decay2 then
    eps_end - (eps_end - 1/100) * ((steps : ℚ) - eps_decay) / eps_decay2
  else 1/100

/-- `MCAgent._get_current_eps` (mc_agent.py lines 387-402): dispatch on
`eps_method`; the `else` branch raises `NotImplementedError`.  `expFn`
abstracts `math.exp`. -/
def getCurrentEps (expFn : ℚ → ℚ) (eps_method : String)
    (eps_start eps_end : ℚ) (eps_decay eps_decay2 : ℕ) (steps : ℕ) :
    Except String ℚ :=
  if eps_method = "exponential" then
    .ok (eps_end + (eps_start - eps_end) * expFn (-(steps : ℚ) / eps_decay))
  else if eps_method = "linear" then
    .ok (getCurrentEpsLinear eps_start eps_end eps_decay eps_decay2 steps)
  else .error "NotImplementedError"

/-- Claim C4: the linear schedule with `eps_start = 1.0`, `eps_end = 0.1`,
`eps_decay = 100`, `eps_decay2 = 200` returns exactly `1.0` at step 0,
exactly `0.1` at step 100, is strictly decreasing on `[0, 100]` and on
`[100, 200]`, and returns exactly `0.01` for every step `≥ 200`. -/
theorem epsLinearSchedule_props :
    getCurrentEpsLinear 1 (1/10) 100 200 0 = 1 ∧
    getCurrentEpsLinear 1 (1/10) 100 200 100 = 1/10 ∧
    (∀ s t : ℕ, s < t → t ≤ 100 →
      getCurrentEpsLinear 1 (1/10) 100 200 t <
        getCurrentEpsLinear 1 (1/10) 100 200 s) ∧
    (∀ s t : ℕ, 100 ≤ s → s < t → t ≤ 200 →
      getCurrentEpsLinear 1 (1/10) 100 200 t <
        getCurrentEpsLinear 1 (1/10) 100 200 s) ∧
    (∀ t : ℕ, 200 ≤ t → getCurrentEpsLinear 1 (1/10) 100 200 t = 1/100) := by
  refine ⟨by norm_num [getCurrentEpsLinear], by norm_num [getCurrentEpsLinear],
    ?_, ?_, ?_⟩
  · intro s t hst ht
    unfold getCurrentEpsLinear
    rcases Nat.lt_or_ge t 100 with h | h
    · rw [if_pos h, if_pos (by omega)]
      have hc : (s : ℚ) < t := by exact_mod_cast hst
      have hs : s < 100 := by omega
      linarith
    · have ht100 : t = 100 := by omega
      subst ht100
      rw [if_neg (by omega), if_pos (by omega), if_pos (by omega)]
      have hc : (s : ℚ) < 100 := by exact_mod_cast (by omega : s < 100)
      push_cast
      linarith
  · intro s t h100 hst ht
    unfold getCurrentEpsLinear
    rcases Nat.lt_or_ge t 200 with h | h
    · rw [if_neg (by omega), if_pos h, if_neg (by omega), if_pos (by omega)]
      have hc : (s : ℚ) < t := by exact_mod_cast hst
      linarith
    · have ht200 : t = 200 := by omega
      subst ht200
      rw [if_neg (by omega), if_neg (by omega), if_neg (by omega),
        if_pos (by omega)]
      have hc : (s : ℚ) ≤ 199 := by exact_mod_cast (by omega : s ≤ 199)
      have hc2 : (100 : ℚ) ≤ s := by exact_mod_cast h100
      linarith
  · intro t ht
    unfold getCurrentEpsLinear
    rw [if_neg (by omega), if_neg (by omega)]

/-- Concrete instance of `epsLinearSchedule_props`: the schedule is strictly
lower at step 50 than at step 3, and is `0.01` at step 250. -/
theorem epsLinearSchedule_props_witness :
    getCurrentEpsLinear 1 (1/10) 100 200 50 <
      getCurrentEpsLinear 1 (1/10) 100 200 3 ∧
    getCurrentEpsLinear 1 (1/10) 100 200 250 = 1/100 :=
  ⟨epsLinearSchedule_props.2.2.1 3 50 (by decide) (by decide),
    epsLinearSchedule_props.2.2.2.2 250 (by decide)⟩

/-! ### Construction-time validation (`MCAgent.__init__`) -/

/-- The action-space capability dispatched on at construction (mc_agent.py
lines 142-143): `MaskDiscrete`, plain `spaces.Discrete`, or anything else
(which the `assert` rejects). -/
inductive ActionSpaceKind
  | maskDiscrete
  | plainDiscrete
  | other
  deriving DecidableEq, Repr

/-- The configuration fields of `MCAgent` relevant to batching and the
exploration schedule, as stored by `__init__`. -/
structure AgentConfig where
  eps_method : String
  batch_size : ℕ
  init_memory_size : ℕ
  memory_size : ℕ
  num_threads : ℕ
  deriving DecidableEq, Repr

/-- The construction-time checks and stores of `MCAgent.__init__`
(mc_agent.py lines 113-205): the `assert` (lines 142-143) requires the
action space to be `MaskDiscrete` or `spaces.Discrete`;
`self._init_memory_size = max(init_memory_size, batch_size)` (line 160);
`self._num_threads = 4` (line 167); the optimizer dispatch raises
`NotImplementedError` for an unrecognized `optimizer_type` (lines 192-205).
`eps_method` is stored unexamined (line 148); nothing in `__init__` reads
it. -/
def agentInit (action_space : ActionSpaceKind)
    (optimizer_type eps_method : String)
    (batch_size init_memory_size memory_size : ℕ) :
    Except String AgentConfig :=
  if action_space = ActionSpaceKind.other then .error "AssertionError"
  else if optimizer_type = "rmsprop" ∨ optimizer_type = "adam" ∨
      optimizer_type = "sgd" then
    .ok ⟨eps_method, batch_size, max init_memory_size batch_size,
      memory_size, 4⟩
  else .error "NotImplementedError"

/-! ### Batch assembler guard and sampling (`MCAgent._prepare_batch`) -/

/-- `random.sample(population, k)`: raises `ValueError` when
`k > len(population)`; otherwise returns the elements at `k` distinct
uniformly chosen positions.  The random draw is modelled by the `positions`
parameter; theorems constrain it to `k` distinct in-range positions, which
is exactly what `random.sample` guarantees. -/
def randomSample {α : Type} [Inhabited α] (l : List α) (k : ℕ)
    (positions : List ℕ) : Except String (List α) :=
  if l.length < k then .error "ValueError"
  else .ok (positions.map fun i => l.getD i default)

/-- The guard-and-sample tail of one `_prepare_batch` iteration (mc_agent.py
lines 349-352), after this iteration's drain appends: `if len(memory) <
self._init_memory_size / self._num_threads: continue` (Python 3 true
division — the threshold is the exact rational), then `transitions =
random.sample(memory, self._batch_size)` and the batch is pushed.  `none`
models `continue` (no sample drawn); otherwise the sampling outcome. -/
def prepareBatchSample (cfg : AgentConfig) {α : Type} [Inhabited α]
    (memory : List α) (positions : List ℕ) :
    Option (Except String (List α)) :=
  if (memory.length : ℚ) <
      (cfg.init_memory_size : ℚ) / (cfg.num_threads : ℚ) then none
  else some (randomSample memory cfg.batch_size positions)

/-- Counterexample to claim C8 as stated: constructing the agent with the
unrecognized exploration-schedule name `"bogus"` succeeds — `__init__`
performs no check on `eps_method` — while `_get_current_eps` raises
`NotImplementedError` for it at its first runtime call inside the learner
loop. -/
theorem c8_counterexample :
    agentInit ActionSpaceKind.plainDiscrete "adam" "bogus" 32 1000 10000 =
      .ok ⟨"bogus", 32, 1000, 10000, 4⟩ ∧
    getCurrentEps id "bogus" 1 (1/10) 100 200 0 =
      .error "NotImplementedError" := by
  constructor <;> rfl

/-- Claim C8, amended: an unrecognized `eps_method` is not rejected at
construction; `__init__` stores it unexamined and succeeds, and the error
surfaces only as a `NotImplementedError` from `_get_current_eps`, which the
learner loop first calls after the actor workers have been started. -/
theorem epsMethodError_surfacesAtRuntime (eps_method : String)
    (h1 : eps_method ≠ "exponential") (h2 : eps_method ≠ "linear") :
    (∀ batch_size init_memory_size memory_size,
      agentInit ActionSpaceKind.plainDiscrete "adam" eps_method batch_size
          init_memory_size memory_size =
        .ok ⟨eps_method, batch_size, max init_memory_size batch_size,
          memory_size, 4⟩) ∧
    (∀ (expFn : ℚ → ℚ) (eps_start eps_end : ℚ)
        (eps_decay eps_decay2 steps : ℕ),
      getCurrentEps expFn eps_method eps_start eps_end eps_decay eps_decay2
          steps = .error "NotImplementedError") := by
  constructor
  · intro b i m
    rfl
  · intro f a b c d s
    unfold getCurrentEps
    rw [if_neg h1, if_neg h2]

/-- Concrete instance of `epsMethodError_surfacesAtRuntime` at the schedule
name `"quadratic"`. -/
theorem epsMethodError_surfacesAtRuntime_witness :
    agentInit ActionSpaceKind.plainDiscrete "adam" "quadratic" 16 0 100 =
      .ok ⟨"quadratic", 16, max 0 16, 100, 4⟩ ∧
    getCurrentEps id "quadratic" 1 (1/10) 100 200 7 =
      .error "NotImplementedError" :=
  ⟨(epsMethodError_surfacesAtRuntime "quadratic" (by decide) (by decide)).1
      16 0 100,
    (epsMethodError_surfacesAtRuntime "quadratic" (by decide) (by decide)).2
      id 1 (1/10) 100 200 7⟩

/-- Counterexample to claim C6 as stated: with `batch_size = 8` and
`init_memory_size = 4` the constructor stores the effective warm-up size
`max(4, 8) = 8`, so the per-thread warm-up threshold is `8 / 4 = 2`; a
buffer of 3 transitions is "warm", yet the iteration does not push a batch —
`random.sample` raises `ValueError` because the population 3 is smaller than
the sample size 8. -/
theorem c6_counterexample :
    agentInit ActionSpaceKind.plainDiscrete "adam" "linear" 8 4 10000 =
      .ok ⟨"linear", 8, 8, 10000, 4⟩ ∧
    prepareBatchSample ⟨"linear", 8, 8, 10000, 4⟩
        [((0 : ℕ), (0 : ℕ), (1 : ℚ)), (1, 1, 2), (2, 0, 3)]
        [0, 1, 2, 0, 1, 2, 0, 1] = some (.error "ValueError") := by
  refine ⟨rfl, ?_⟩
  rw [prepareBatchSample, if_neg (by push_cast; norm_num), randomSample,
    if_pos (by norm_num)]

/-- Claim C6, amended: a batch-assembler iteration draws no sample while its
buffer holds fewer than `init_memory_size / num_threads` transitions (the
warm-up threshold scaled to its share); once warm AND holding at least
`batch_size` transitions, the iteration draws a sample at `batch_size`
distinct buffer positions (chosen uniformly without replacement — modelled
by the constrained `positions` parameter) and pushes the batch of the
transitions at those positions, each taken from the current buffer. -/
theorem prepareBatch_guard_and_sample (cfg : AgentConfig) {α : Type}
    [Inhabited α] (memory : List α) (positions : List ℕ) :
    (prepareBatchSample cfg memory positions = none ↔
      (memory.length : ℚ) <
        (cfg.init_memory_size : ℚ) / (cfg.num_threads : ℚ)) ∧
    (¬((memory.length : ℚ) <
        (cfg.init_memory_size : ℚ) / (cfg.num_threads : ℚ)) →
      cfg.batch_size ≤ memory.length →
      positions.Nodup → positions.length = cfg.batch_size →
      (∀ i ∈ positions, i < memory.length) →
      prepareBatchSample cfg memory positions =
          some (.ok (positions.map fun i => memory.getD i default)) ∧
        (positions.map fun i => memory.getD i default).length =
          cfg.batch_size ∧
        ∀ x ∈ positions.map fun i => memory.getD i default, x ∈ memory) := by
  constructor
  · unfold prepareBatchSample
    split_ifs with h
    · simp [h]
    · simp [h]
  · intro hwarm hbs _ hplen hbound
    rw [prepareBatchSample, if_neg hwarm, randomSample, if_neg (by omega)]
    refine ⟨rfl, by simp [hplen], ?_⟩
    intro x hx
    simp only [List.mem_map] at hx
    obtain ⟨i, hi, rfl⟩ := hx
    have hilt : i < memory.length := hbound i hi
    rw [List.getD_eq_getElem memory default hilt]
    exact List.getElem_mem hilt

/-- Concrete instance of `prepareBatch_guard_and_sample`: warm-up threshold
`8 / 4 = 2`, buffer `[5, 6, 7]`, batch size 2, sampled positions `[0, 2]`. -/
theorem prepareBatch_guard_and_sample_witness :
    prepareBatchSample ⟨"linear", 2, 8, 100, 4⟩ [(5 : ℕ), 6, 7] [0, 2] =
        some (.ok ([0, 2].map fun i => [(5 : ℕ), 6, 7].getD i default)) ∧
      (([0, 2].map fun i => [(5 : ℕ), 6, 7].getD i default)).length =
        (AgentConfig.mk "linear" 2 8 100 4).batch_size ∧
      ∀ x ∈ [0, 2].map fun i => [(5 : ℕ), 6, 7].getD i default,
        x ∈ [(5 : ℕ), 6, 7] :=
  (prepareBatch_guard_and_sample ⟨"linear", 2, 8, 100, 4⟩ [(5 : ℕ), 6, 7]
      [0, 2]).2
    (by push_cast; norm_num) (by norm_num) (by norm_num) (by norm_num)
    (by norm_num)

/-- Claim C10, evaluated at its failing input: with `batch_size = 8`,
`init_memory_size = 0` and `num_threads = 4`, the constructor's
`max(init_memory_size, batch_size)` stores 8, so the per-thread warm-up
threshold is `8 / 4 = 2`; a buffer of only 2 transitions passes the guard
and `random.sample(memory, 8)` is invoked with population 2 < 8, raising
`ValueError` inside the assembler thread — the error branch IS reachable,
contradicting the claim. -/
theorem initMemoryGuard_insufficient :
    agentInit ActionSpaceKind.plainDiscrete "adam" "linear" 8 0 10000 =
      .ok ⟨"linear", 8, 8, 10000, 4⟩ ∧
    prepareBatchSample ⟨"linear", 8, 8, 10000, 4⟩
        [((7 : ℕ), (1 : ℕ), (1 : ℚ)), (9, 0, -1)]
        [0, 1, 0, 1, 0, 1, 0, 1] = some (.error "ValueError") := by
  refine ⟨rfl, ?_⟩
  rw [prepareBatchSample, if_neg (by push_cast; norm_num), randomSample,
    if_pos (by norm_num)]

/-! ### Actor worker episode loop (`actor_worker`, mc_agent.py lines 77-107)

The `while True` episode loop of `actor_worker` contains no `try`/`except`:
each episode runs the environment to termination, emits the backward-return
transitions and the episode outcome.  An episode is abstracted as either a
completed chronological trajectory or a fault raised partway (from
`env.reset`, `act`, `env.step`, ...). -/

/-- The full-episode outcome pushed onto the outcome queue (mc_agent.py line
101): the value of `cum_return` after the backward walk, i.e. the return
labelled on the chronologically first transition (`0.0` for an empty
trajectory). -/
def episodeOutcomeReturn (discount : ℚ) (traj : List TransRec) : ℚ :=
  ((actorEmit discount traj).getLastD (0, 0, 0)).2.2

/-- A run of `actor_worker` over a finite prefix of episodes, each episode
either completing with its trajectory or raising a fault.  Because the loop
body has no exception handling, a fault ends the whole run; otherwise the
worker accumulates every episode's transition pushes and outcome pushes. -/
def actorWorkerRun (discount : ℚ) :
    List (Except String (List TransRec)) →
      Except String (List (ℕ × ℕ × ℚ) × List ℚ)
  | [] => .ok ([], [])
  | .error e :: _ => .error e
  | .ok traj :: rest =>
    match actorWorkerRun discount rest with
    | .error e => .error e
    | .ok (ps, os) =>
      .ok (actorEmit discount traj ++ ps,
        episodeOutcomeReturn discount traj :: os)

/-- Counterexample to claim C9 as stated: a worker whose first episode
raises a fault terminates with that fault; the following episode is never
run and its transitions are never produced — the fault is not caught and the
worker does not proceed. -/
theorem c9_counterexample :
    actorWorkerRun (9/10)
        [.error "RuntimeError in env.step", .ok [⟨0, 0, 1⟩]] =
      .error "RuntimeError in env.step" := by
  rfl

/-- Claim C9, amended: `actor_worker` has no exception handling around its
episode loop, so a fault raised while running one episode propagates and
terminates the worker: whenever every episode before the faulting one
completes, the run's result is the fault itself, and no subsequent episode
is processed. -/
theorem actorWorker_fault_propagates (discount : ℚ)
    (pre post : List (Except String (List TransRec))) (e : String)
    (hpre : ∀ x ∈ pre, ∃ t, x = .ok t) :
    actorWorkerRun discount (pre ++ .error e :: post) = .error e := by
  induction pre with
  | nil => rfl
  | cons x rest ih =>
    obtain ⟨t, rfl⟩ := hpre x (by simp)
    have hrec := ih fun y hy => hpre y (by simp [hy])
    show actorWorkerRun discount
      (.ok t :: (rest ++ .error e :: post)) = .error e
    rw [actorWorkerRun, hrec]

/-- Concrete instance of `actorWorker_fault_propagates`: one completed
episode, then a fault; the worker run ends in the fault. -/
theorem actorWorker_fault_propagates_witness :
    actorWorkerRun 1
        ([.ok [⟨1, 2, 3⟩]] ++ .error "EnvCrash" :: [.ok []]) =
      .error "EnvCrash" :=
  actorWorker_fault_propagates 1 [.ok [⟨1, 2, 3⟩]] [.ok []] "EnvCrash"
    (fun x hx => by
      simp only [List.mem_singleton] at hx
      exact ⟨[⟨1, 2, 3⟩], hx⟩)

/-! ### Epsilon-greedy action selection under a validity mask
(`actor_worker.act` lines 44-75 and `MCAgent.act` lines 207-230)

In the `MaskDiscrete` case the observation is a tuple whose final element is
the validity mask (`preprocess_observation`, lines 44-51 / 254-261):
`action_mask = observation[-1]; observation = observation[:-1]` (the
singleton-tuple unwrap at lines 49-50 is a representation detail of the
tuple encoding).  Exploitation sets `q[action_mask == 0] = -inf` and takes
`q.data.max(1)[1][0]`; exploration samples from
`np.nonzero(action_mask)[0]`.  Components are abstracted to rational
vectors; `-inf` is `⊥` in `WithBot ℚ`. -/

/-- Mask extraction and stripping for the `MaskDiscrete` case. -/
def preprocessObservation (observation : List (List ℚ)) :
    List (List ℚ) × List ℚ :=
  (observation.dropLast, observation.getLastD [])

/-- `q[action_mask == 0] = float(-inf)` (line 67): entry `i` of the masked
q-vector is `⊥` where the mask is zero and the original value otherwise. -/
def applyMask (q mask : List ℚ) : List (WithBot ℚ) :=
  List.zipWith
    (fun (qi mi : ℚ) => if mi = 0 then (⊥ : WithBot ℚ) else (qi : WithBot ℚ))
    q mask

/-- One comparison step of the arg-max scan. -/
def amStep (l : List (WithBot ℚ)) (best i : ℕ) : ℕ :=
  if l.getD best ⊥ < l.getD i ⊥ then i else best

/-- `q.data.max(1)[1][0]` (line 68): an index attaining the maximum of the
masked q-vector (the scan keeps the first maximal index). -/
def argmaxIdx (l : List (WithBot ℚ)) : ℕ :=
  (List.range l.length).foldl (amStep l) 0

/-- The exploitation branch of `act` for the `MaskDiscrete` case (lines
54-69): strip the mask, query the network on the stripped observation, mask
invalid entries to `-inf`, arg-max. -/
def exploitAction (qNet : List (List ℚ) → List ℚ)
    (observation : List (List ℚ)) : ℕ :=
  argmaxIdx (applyMask (qNet (preprocessObservation observation).1)
    (preprocessObservation observation).2)

/-- `np.nonzero(action_mask)[0]` (line 73): the indices whose mask entry is
nonzero, in increasing order. -/
def nonzeroIndices (mask : List ℚ) : List ℕ :=
  (List.range mask.length).filter fun i => decide (mask.getD i 0 ≠ 0)

/-- Modelled from the spec: `MaskDiscrete.sample(availables)` lives in
`envs/space.py`, which is not under `src/`; per the spec the exploration
branch must "sample uniformly from the valid action set".  The uniform draw
is modelled by the `choice` parameter reduced modulo the number of available
actions, so every available action is a possible result and only available
actions are results. -/
def maskDiscreteSample (avail : List ℕ) (choice : ℕ) : ℕ :=
  avail.getD (choice % avail.length) 0

/-- The exploration branch of `act` for the `MaskDiscrete` case (lines
70-73): sample among the nonzero-mask indices. -/
def exploreAction (observation : List (List ℚ)) (choice : ℕ) : ℕ :=
  maskDiscreteSample (nonzeroIndices (preprocessObservation observation).2)
    choice

theorem amStep_ge_left (l : List (WithBot ℚ)) (b i : ℕ) :
    l.getD b ⊥ ≤ l.getD (amStep l b i) ⊥ := by
  unfold amStep
  split_ifs with h
  · exact le_of_lt h
  · exact le_refl _

theorem amStep_ge_right (l : List (WithBot ℚ)) (b i : ℕ) :
    l.getD i ⊥ ≤ l.getD (amStep l b i) ⊥ := by
  unfold amStep
  split_ifs with h
  · exact le_refl _
  · exact le_of_not_lt h

theorem foldl_amStep_ge_init (l : List (WithBot ℚ)) (is : List ℕ) (b : ℕ) :
    l.getD b ⊥ ≤ l.getD (is.foldl (amStep l) b) ⊥ := by
  induction is generalizing b with
  | nil => exact le_refl _
  | cons i rest ih =>
    exact le_trans (amStep_ge_left l b i) (ih (amStep l b i))

theorem foldl_amStep_ge_mem (l : List (WithBot ℚ)) (is : List ℕ) (b j : ℕ)
    (hj : j ∈ is) :
    l.getD j ⊥ ≤ l.getD (is.foldl (amStep l) b) ⊥ := by
  induction is generalizing b with
  | nil => simp at hj
  | cons i rest ih =>
    rcases List.mem_cons.mp hj with h | h
    · subst h
      exact le_trans (amStep_ge_right l b j) (foldl_amStep_ge_init l rest _)
    · exact ih _ h

/-- The arg-max scan returns an index whose value dominates every entry. -/
theorem argmaxIdx_ge (l : List (WithBot ℚ)) (j : ℕ) (hj : j < l.length) :
    l.getD j ⊥ ≤ l.getD (argmaxIdx l) ⊥ :=
  foldl_amStep_ge_mem l _ 0 j (List.mem_range.mpr hj)

theorem applyMask_length (q mask : List ℚ) :
    (applyMask q mask).length = min q.length mask.length := by
  simp only [applyMask, List.length_zipWith]

theorem applyMask_getD (q mask : List ℚ) (i : ℕ) (hiq : i < q.length)
    (him : i < mask.length) :
    (applyMask q mask).getD i ⊥ =
      if mask.getD i 0 = 0 then (⊥ : WithBot ℚ)
      else ((q.getD i 0 : ℚ) : WithBot ℚ) := by
  have hlen : i < (applyMask q mask).length := by
    rw [applyMask_length]
    omega
  rw [List.getD_eq_getElem _ _ hlen, List.getD_eq_getElem _ _ hiq,
    List.getD_eq_getElem _ _ him]
  simp only [applyMask, List.getElem_zipWith]

theorem mem_nonzeroIndices {mask : List ℚ} {i : ℕ}
    (h : i ∈ nonzeroIndices mask) : mask.getD i 0 ≠ 0 := by
  unfold nonzeroIndices at h
  have := (List.mem_filter.mp h).2
  simpa using this

/-- Claim C7: for the maskable discrete action space, the action selection
of `act` treats the final element of the observation tuple as the validity
mask and strips it before the observation reaches the model, and both
branches return only valid actions: exploitation arg-maxes the action-values
with masked-out (`mask = 0`) entries set to `-inf`, exploration samples
among the actions with nonzero mask.  Hypotheses: the q-vector matches the
mask length and at least one action is valid. -/
theorem act_maskedValidity (qNet : List (List ℚ) → List ℚ)
    (observation : List (List ℚ)) (mask : List ℚ) (choice j : ℕ)
    (hmask : (preprocessObservation observation).2 = mask)
    (hlen : (qNet observation.dropLast).length = mask.length)
    (hj : j < mask.length) (hvalid : mask.getD j 0 ≠ 0) :
    (preprocessObservation observation).1 = observation.dropLast ∧
    exploitAction qNet observation =
      argmaxIdx (applyMask (qNet observation.dropLast) mask) ∧
    mask.getD (exploitAction qNet observation) 0 ≠ 0 ∧
    mask.getD (exploreAction observation choice) 0 ≠ 0 := by
  have hexp : exploitAction qNet observation =
      argmaxIdx (applyMask (qNet observation.dropLast) mask) := by
    unfold exploitAction
    rw [hmask]
    rfl
  refine ⟨rfl, hexp, ?_, ?_⟩
  · rw [hexp]
    have hjq : j < (qNet observation.dropLast).length := by omega
    have hjL : j < (applyMask (qNet observation.dropLast) mask).length := by
      rw [applyMask_length]
      omega
    have hLj : (applyMask (qNet observation.dropLast) mask).getD j ⊥ =
        (((qNet observation.dropLast).getD j 0 : ℚ) : WithBot ℚ) := by
      rw [applyMask_getD _ _ j hjq hj, if_neg hvalid]
    have hge := argmaxIdx_ge (applyMask (qNet observation.dropLast) mask) j hjL
    rw [hLj] at hge
    have hbot : (applyMask (qNet observation.dropLast) mask).getD
        (argmaxIdx (applyMask (qNet observation.dropLast) mask)) ⊥ ≠ ⊥ := by
      intro hcontra
      rw [hcontra] at hge
      exact WithBot.not_coe_le_bot _ hge
    have haL : argmaxIdx (applyMask (qNet observation.dropLast) mask) <
        (applyMask (qNet observation.dropLast) mask).length := by
      by_contra hge2
      exact hbot (List.getD_eq_default _ _ (by omega))
    have haq : argmaxIdx (applyMask (qNet observation.dropLast) mask) <
        (qNet observation.dropLast).length := by
      rw [applyMask_length] at haL
      omega
    have ham : argmaxIdx (applyMask (qNet observation.dropLast) mask) <
        mask.length := by omega
    intro hmz
    apply hbot
    rw [applyMask_getD _ _ _ haq ham, if_pos hmz]
  · unfold exploreAction
    rw [hmask]
    have hmem : j ∈ nonzeroIndices mask := by
      unfold nonzeroIndices
      rw [List.mem_filter]
      exact ⟨List.mem_range.mpr hj, by simpa using hvalid⟩
    have hne : nonzeroIndices mask ≠ [] := by
      intro h
      rw [h] at hmem
      simp at hmem
    have hidx : choice % (nonzeroIndices mask).length <
        (nonzeroIndices mask).length :=
      Nat.mod_lt _ (List.length_pos.mpr hne)
    unfold maskDiscreteSample
    rw [List.getD_eq_getElem _ _ hidx]
    exact mem_nonzeroIndices (List.getElem_mem hidx)

/-- Concrete instance of `act_maskedValidity`: observation `([1,2], mask
[0,1,0])`, q-values `[5,7,3]`; only action 1 is valid, and both branches
return it. -/
theorem act_maskedValidity_witness :
    (preprocessObservation [[1, 2], [0, 1, 0]]).1 =
      ([[1, 2], [0, 1, 0]] : List (List ℚ)).dropLast ∧
    exploitAction (fun _ => [5, 7, 3]) [[1, 2], [0, 1, 0]] =
      argmaxIdx (applyMask ((fun _ => [5, 7, 3])
        ([[1, 2], [0, 1, 0]] : List (List ℚ)).dropLast) [0, 1, 0]) ∧
    ([(0 : ℚ), 1, 0].getD
        (exploitAction (fun _ => [5, 7, 3]) [[1, 2], [0, 1, 0]]) 0 ≠ 0) ∧
    ([(0 : ℚ), 1, 0].getD (exploreAction [[1, 2], [0, 1, 0]] 4) 0 ≠ 0) :=
  act_maskedValidity (fun _ => [5, 7, 3]) [[1, 2], [0, 1, 0]] [0, 1, 0] 4 1
    rfl rfl (by decide) (by norm_num)

end MCAgent
